import Mathlib

/-!
Verification of the plugin2mcp interception engine and structured-response
extractor.

The development shallowly embeds the two core modules of the repository:

* `plugin2mcp/interceptor.py` — namespace parsing, plugin-directory
  resolution, intercept lookup, path resolution, configuration probe and the
  orchestrating `find_intercept`.  Python text is modelled as `String` (for
  filesystem paths) or `List Char` (for scanned text), the filesystem as a
  structure of total query functions, parsed JSON values as `PyVal`, and
  uncaught Python exceptions as an explicit `Except PyErr` result.

* `plugin2mcp/executor.py` — the `_parse_response` three-tier recovery of an
  embedded JSON payload, including a faithful model of the specific regular
  expression search it performs and of `json.loads`.

Definitions mirror the Python source line by line; spec-side definitions
(used to compare the code with the description in the specification) carry
`Spec` in their name.
-/

set_option linter.unusedVariables false

namespace Plugin2MCP

/-! ## Character and text utilities (models of Python `str` operations) -/

/-- Python whitespace for `str.strip()` and the regex class `\s`
(ASCII range; the model does not cover non-ASCII whitespace, which no
specified behaviour depends on). -/
def isPySpace (c : Char) : Bool :=
  c = ' ' || c = '\t' || c = '\n' || c = '\r' || c = '\x0b' || c = '\x0c'

/-- Whitespace skipped between tokens by the Python `json` module
(strictly `' '`, `'\t'`, `'\n'`, `'\r'` — narrower than `str.strip()`). -/
def isJsonSpace (c : Char) : Bool :=
  c = ' ' || c = '\t' || c = '\n' || c = '\r'

/-- Model of Python `str.strip()` with no argument. -/
def pyStrip (s : List Char) : List Char :=
  ((s.dropWhile isPySpace).reverse.dropWhile isPySpace).reverse

/-- Index of the first occurrence of `pat` as a contiguous substring of
`text`, or `none`.  Models Python `str.find` (and the guard `pat in text`). -/
def findSub (pat text : List Char) : Option Nat :=
  match text with
  | [] => if pat.isEmpty then some 0 else Option.none
  | _ :: rest =>
    if pat.isPrefixOf text then some 0
    else (findSub pat rest).map (· + 1)

/-- Model of Python `pat in text` for strings. -/
def containsSub (pat text : List Char) : Bool :=
  (findSub pat text).isSome

/-- Index of the last `'\x7d'` in `text`, or `none`.
Models `text.rfind("\x7d")` (which returns `-1` when absent). -/
def rfindBrace : List Char → Option Nat
  | [] => Option.none
  | c :: rest =>
    match rfindBrace rest with
    | some i => some (i + 1)
    | Option.none => if c = '}' then some 0 else Option.none

/-- Strict lexicographic order on character lists by code point, exactly the
order Python uses to compare `str` values. -/
def lexLtb : List Char → List Char → Bool
  | [], [] => false
  | [], _ :: _ => true
  | _ :: _, [] => false
  | a :: as, b :: bs =>
    if a.toNat < b.toNat then true
    else if b.toNat < a.toNat then false
    else lexLtb as bs

/-- Non-strict string order by code point (Python `<=` on `str`). -/
def strLeb (a b : String) : Bool := !(lexLtb b.toList a.toList)

/-- The order `strLeb` as a decidable relation, for use with stable
insertion sort (our model of the stable Python `sorted`). -/
def strLeR (a b : String) : Prop := strLeb a b = true

instance : DecidableRel strLeR := fun _ _ => inferInstanceAs (Decidable (_ = true))

/-- Descending variant, modelling `sorted(..., reverse=True)`:
Python sorts as if each comparison were reversed, keeping stability. -/
def strGeR (a b : String) : Prop := strLeb b a = true

instance : DecidableRel strGeR := fun _ _ => inferInstanceAs (Decidable (_ = true))

/-! ## Python values produced by `json.loads`

`PyVal.none` is the Python value `None` (the parse of JSON `null`); a float literal
is kept as its lexeme, since no specified behaviour performs float
arithmetic or compares distinct float spellings. -/

inductive PyVal where
  | none
  | bool (b : Bool)
  | int (n : Int)
  | numFloat (lexeme : List Char)
  | str (s : String)
  | list (xs : List PyVal)
  | dict (kvs : List (String × PyVal))

/-- Python truthiness (`bool(v)`) for JSON-derived values.  A float is falsy
exactly when its mantissa has no non-zero digit (`Infinity`/`NaN` are
truthy); extreme exponents that overflow or underflow a machine float lie
outside the model. -/
def pyTruthy : PyVal → Bool
  | PyVal.none => false
  | PyVal.bool b => b
  | PyVal.int n => n != 0
  | PyVal.numFloat lex =>
      lex.contains 'I' || lex.contains 'N' ||
        (lex.takeWhile (fun c => c ≠ 'e' && c ≠ 'E')).any
          (fun c => '1' ≤ c && c ≤ '9')
  | PyVal.str s => s ≠ ""
  | PyVal.list xs => !xs.isEmpty
  | PyVal.dict kvs => !kvs.isEmpty

/-- Dictionary lookup with default on a known `dict` payload:
`kvs.get(key, dflt)` where `kvs` are the entries in insertion order. -/
def pyGetD (kvs : List (String × PyVal)) (key : String) (dflt : PyVal) : PyVal :=
  match kvs.find? (fun e => e.1 == key) with
  | some e => e.2
  | Option.none => dflt

/-- Python dict insertion: an existing key keeps its position and has its
value replaced, a new key is appended.  Used to build objects in
`jsonLoads`, matching `dict(pairs)` on duplicate keys. -/
def insertPy (kvs : List (String × PyVal)) (key : String) (v : PyVal) :
    List (String × PyVal) :=
  match kvs with
  | [] => [(key, v)]
  | e :: rest =>
    if e.1 == key then (key, v) :: rest else e :: insertPy rest key v

/-- Python `needle in xs` for a `str` needle and a list of JSON-derived
values: `==` between a `str` and a value of any other type is `False`. -/
def pyStrMem (needle : String) (xs : List PyVal) : Bool :=
  xs.any (fun v =>
    match v with
    | PyVal.str t => t == needle
    | _ => false)

/-! ## Model of `json.loads`

A recursive-descent parser for the grammar the Python `json` module accepts by
default: RFC 8259 JSON plus the literals `NaN`, `Infinity` and `-Infinity`,
rejecting trailing data, unescaped control characters in strings, and
trailing commas.  Recursion is bounded by a fuel argument; the top-level
entry point supplies `length + 1` fuel, which every accepted input stays
within because each recursive call consumes at least one character.
Escapes `\uXXXX` decode to the single character with that code
(surrogate-pair combination lies outside the model; no claim touches it). -/

/-- Value of one hexadecimal digit (code points compared numerically;
48–57 are `0`–`9`, 97–102 are `a`–`f`, 65–70 are `A`–`F`). -/
def hexVal (c : Char) : Option Nat :=
  let n := c.toNat
  if 48 ≤ n && n ≤ 57 then some (n - 48)
  else if 97 ≤ n && n ≤ 102 then some (n - 87)
  else if 65 ≤ n && n ≤ 70 then some (n - 55)
  else Option.none

/-- Parse the body of a JSON string after the opening quote, returning the
decoded string and the remaining input. -/
def parseStringBody : List Char → List Char → Except Unit (String × List Char)
  | [], _ => .error ()
  | c :: rest, acc =>
    if c = '"' then .ok (String.mk acc.reverse, rest)
    else if c = '\\' then
      match rest with
      | [] => .error ()
      | e :: rest2 =>
        if e = '"' then parseStringBody rest2 ('"' :: acc)
        else if e = '\\' then parseStringBody rest2 ('\\' :: acc)
        else if e = '/' then parseStringBody rest2 ('/' :: acc)
        else if e = 'b' then parseStringBody rest2 ('\x08' :: acc)
        else if e = 'f' then parseStringBody rest2 ('\x0c' :: acc)
        else if e = 'n' then parseStringBody rest2 ('\n' :: acc)
        else if e = 'r' then parseStringBody rest2 ('\r' :: acc)
        else if e = 't' then parseStringBody rest2 ('\t' :: acc)
        else if e = 'u' then
          match rest2 with
          | h1 :: h2 :: h3 :: h4 :: rest3 =>
            match hexVal h1, hexVal h2, hexVal h3, hexVal h4 with
            | some a, some b, some c3, some d =>
              parseStringBody rest3
                (Char.ofNat (((a * 16 + b) * 16 + c3) * 16 + d) :: acc)
            | _, _, _, _ => .error ()
          | _ => .error ()
        else .error ()
    else if c.toNat < 0x20 then .error ()
    else parseStringBody rest (c :: acc)

/-- Digits to a natural number value. -/
def digitsToNat (ds : List Char) : Nat :=
  ds.foldl (fun a c => 10 * a + (c.toNat - 48)) 0

/-- Parse a JSON number at the head of the input.  The integer part is a
single `0` or a non-zero digit followed by digits; with no fraction and no
exponent the result is a Python `int`, otherwise a float kept as its
lexeme. -/
def parseNumber (s : List Char) : Except Unit (PyVal × List Char) :=
  match s with
  | '-' :: s1 =>
    match parseNumber s1 with
    | .ok (PyVal.int n, rest) => .ok (PyVal.int (-n), rest)
    | .ok (PyVal.numFloat lex, rest) => .ok (PyVal.numFloat ('-' :: lex), rest)
    | r => r
  | d :: _ =>
    if d.isDigit then
      let intPart : List Char :=
        if d = '0' then ['0'] else s.takeWhile Char.isDigit
      let afterInt := s.drop intPart.length
      let fracPart : List Char :=
        match afterInt with
        | '.' :: t =>
          let ds := t.takeWhile Char.isDigit
          if ds.isEmpty then [] else '.' :: ds
        | _ => []
      let afterFrac := afterInt.drop fracPart.length
      let expPart : List Char :=
        match afterFrac with
        | e :: t =>
          if e = 'e' || e = 'E' then
            match t with
            | sg :: t2 =>
              if sg = '+' || sg = '-' then
                let ds := t2.takeWhile Char.isDigit
                if ds.isEmpty then [] else e :: sg :: ds
              else
                let ds := t.takeWhile Char.isDigit
                if ds.isEmpty then [] else e :: ds
            | [] => []
          else []
        | [] => []
      let rest := afterFrac.drop expPart.length
      if fracPart.isEmpty && expPart.isEmpty then
        .ok (PyVal.int (Int.ofNat (digitsToNat intPart)), rest)
      else
        .ok (PyVal.numFloat (intPart ++ fracPart ++ expPart), rest)
    else .error ()
  | [] => .error ()

mutual

/-- Parse one JSON value at the head of the input (leading whitespace
allowed), returning the value and the remaining input. -/
def parseVal : Nat → List Char → Except Unit (PyVal × List Char)
  | 0, _ => .error ()
  | fuel + 1, s0 =>
    let s := s0.dropWhile isJsonSpace
    match s with
    | [] => .error ()
    | c :: rest =>
      if c = '{' then parseObj fuel rest []
      else if c = '[' then parseArr fuel rest []
      else if c = '"' then
        match parseStringBody rest [] with
        | .ok (str, rest2) => .ok (PyVal.str str, rest2)
        | .error e => .error e
      else if ['t', 'r', 'u', 'e'].isPrefixOf s then
        .ok (PyVal.bool true, s.drop 4)
      else if ['f', 'a', 'l', 's', 'e'].isPrefixOf s then
        .ok (PyVal.bool false, s.drop 5)
      else if ['n', 'u', 'l', 'l'].isPrefixOf s then
        .ok (PyVal.none, s.drop 4)
      else if ['N', 'a', 'N'].isPrefixOf s then
        .ok (PyVal.numFloat ['N', 'a', 'N'], s.drop 3)
      else if ['I', 'n', 'f', 'i', 'n', 'i', 't', 'y'].isPrefixOf s then
        .ok (PyVal.numFloat ['I', 'n', 'f', 'i', 'n', 'i', 't', 'y'], s.drop 8)
      else if ['-', 'I', 'n', 'f', 'i', 'n', 'i', 't', 'y'].isPrefixOf s then
        .ok (PyVal.numFloat ['-', 'I', 'n', 'f', 'i', 'n', 'i', 't', 'y'], s.drop 9)
      else parseNumber s

/-- Parse array elements after `'['` (or after a comma), given the elements
accumulated so far in reverse. -/
def parseArr : Nat → List Char → List PyVal → Except Unit (PyVal × List Char)
  | 0, _, _ => .error ()
  | fuel + 1, s0, acc =>
    let s := s0.dropWhile isJsonSpace
    match s, acc with
    | ']' :: rest, [] => .ok (PyVal.list [], rest)
    | _, _ =>
      match parseVal fuel s with
      | .error e => .error e
      | .ok (v, rest) =>
        match rest.dropWhile isJsonSpace with
        | ',' :: rest2 => parseArr fuel rest2 (v :: acc)
        | ']' :: rest2 => .ok (PyVal.list (v :: acc).reverse, rest2)
        | _ => .error ()

/-- Parse object members after `'\x7b'` (or after a comma), given the
members accumulated so far in insertion order. -/
def parseObj : Nat → List Char → List (String × PyVal) →
    Except Unit (PyVal × List Char)
  | 0, _, _ => .error ()
  | fuel + 1, s0, acc =>
    let s := s0.dropWhile isJsonSpace
    match s, acc with
    | '}' :: rest, [] => .ok (PyVal.dict [], rest)
    | _, _ =>
      match s with
      | '"' :: rest =>
        match parseStringBody rest [] with
        | .error e => .error e
        | .ok (key, rest2) =>
          match rest2.dropWhile isJsonSpace with
          | ':' :: rest3 =>
            match parseVal fuel rest3 with
            | .error e => .error e
            | .ok (v, rest4) =>
              match rest4.dropWhile isJsonSpace with
              | ',' :: rest5 => parseObj fuel rest5 (insertPy acc key v)
              | '}' :: rest5 => .ok (PyVal.dict (insertPy acc key v), rest5)
              | _ => .error ()
          | _ => .error ()
      | _ => .error ()

end

/-- Model of `json.loads` on a character sequence: parse one value, then
require only whitespace to remain (Python raises `JSONDecodeError`,
modelled as `.error ()`, on any failure including trailing data). -/
def jsonLoads (s : List Char) : Except Unit PyVal :=
  match parseVal (s.length + 1) s with
  | .error e => .error e
  | .ok (v, rest) =>
    if (rest.dropWhile isJsonSpace).isEmpty then .ok v else .error ()

/-! ## Structured Response Extractor — model of `executor._parse_response`

The Python function returns a pair `(markdown, structured_data)` where
`structured_data` is Python `None` when no payload is recovered; since
JSON `null` also parses to `None`, the second component is a `PyVal` and
absence is `PyVal.none`, exactly as in the source.  Each strategy of the
three-tier fallback of the source is one definition returning `Option`;
`parse_response` composes them in order. -/

/-- The literal `\x60\x60\x60json` that opens a fenced block. -/
def fenceOpen : List Char := ['`', '`', '`', 'j', 's', 'o', 'n']

/-- The literal newline-plus-three-backticks that closes a fenced block. -/
def nlFence : List Char := ['\n', '`', '`', '`']

/-- Tail of the fence regex after the opening literal: match
`\s*\n(.*?)\n\x60\x60\x60` at the start of `rest` and return the group.
Mirrors the regex engine: the greedy `\s*` tries the largest prefix first
(the argument counts down from the length of the maximal whitespace
prefix), the lazy group takes the first following close fence, and a
failed close-fence search backtracks `\s*`. -/
def fenceTailAux (rest : List Char) : Nat → Option (List Char)
  | 0 => Option.none
  | l + 1 =>
    match rest[l]? with
    | some '\n' =>
      (match findSub nlFence (rest.drop (l + 1)) with
       | some k => some ((rest.drop (l + 1)).take k)
       | Option.none => fenceTailAux rest l)
    | _ => fenceTailAux rest l

/-- Match the fence regex tail at the start of `rest` (the text following
the opening `\x60\x60\x60json` literal). -/
def fenceTail (rest : List Char) : Option (List Char) :=
  fenceTailAux rest (rest.takeWhile isPySpace).length

/-- Leftmost match of `re.search(r"\x60\x60\x60json\s*\n(.*?)\n\x60\x60\x60", text, re.DOTALL)`:
scan start positions left to right; where the opening literal matches,
try the tail; on tail failure continue at the next position.  Returns the
match start (offset by `i`) and group 1. -/
def fenceSearch : List Char → Nat → Option (Nat × List Char)
  | [], _ => Option.none
  | text@(_ :: rest), i =>
    if fenceOpen.isPrefixOf text then
      match fenceTail (text.drop 7) with
      | some g => some (i, g)
      | Option.none => fenceSearch rest (i + 1)
    else fenceSearch rest (i + 1)

/-- Strategy 1 of `_parse_response`: JSON block in a code fence.  On a
regex match, markdown is everything strictly before the match, stripped;
a parse failure of the fence contents abandons the strategy. -/
def strategy1 (s : List Char) : Option (List Char × PyVal) :=
  match fenceSearch s 0 with
  | some (start, g) =>
    (match jsonLoads g with
     | .ok v => some (pyStrip (s.take start), v)
     | .error _ => Option.none)
  | Option.none => Option.none

/-- The fixed marker list of strategy 2, in source order. -/
def markers : List (List Char) :=
  [("## Structured Data").toList,
   ("## JSON Output").toList,
   ("## Structured JSON").toList,
   ("## JSON").toList,
   ['-', '-', '-', '\n', '\n', '{']]

/-- Forward depth scan of strategy 2: starting from the first `'\x7b'` of
the marker tail, find the offset of the character where the depth
counter ('\x7b' is +1, '\x7d' is −1) first returns to zero. -/
def findClose : List Char → Int → Nat → Option Nat
  | [], _, _ => Option.none
  | c :: rest, depth, i =>
    if c = '{' then findClose rest (depth + 1) (i + 1)
    else if c = '}' then
      (if depth - 1 = 0 then some i else findClose rest (depth - 1) (i + 1))
    else findClose rest depth (i + 1)

/-- One marker attempt of strategy 2: if the marker occurs in `s`, split at
its first occurrence, strip both sides, locate the first `'\x7b'` of the
tail, depth-match it, and try to parse the balanced region; any failure
yields `none` so the next marker is tried. -/
def tryMarker (s marker : List Char) : Option (List Char × PyVal) :=
  match findSub marker s with
  | Option.none => Option.none
  | some idx =>
    let markdown := pyStrip (s.take idx)
    let jsonPart := pyStrip (s.drop (idx + marker.length))
    match findSub ['{'] jsonPart with
    | Option.none => Option.none
    | some bs =>
      match findClose (jsonPart.drop bs) 0 0 with
      | Option.none => Option.none
      | some off =>
        match jsonLoads ((jsonPart.drop bs).take (off + 1)) with
        | .ok v => some (markdown, v)
        | .error _ => Option.none

/-- First success in a left-to-right sweep. -/
def firstSome (f : α → Option β) : List α → Option β
  | [] => Option.none
  | a :: rest =>
    match f a with
    | some b => some b
    | Option.none => firstSome f rest

/-- Strategy 2 of `_parse_response`: JSON after the first successful
marker, in marker-list order. -/
def strategy2 (s : List Char) : Option (List Char × PyVal) :=
  firstSome (tryMarker s) markers

/-- Backward depth scan of strategy 3 over the reversal of
`s.take (lastBrace + 1)`: walking from the last `'\x7d'` towards the
front, `'\x7d'` is +1 and `'\x7b'` is −1; return how many characters were
stepped over when the depth first returns to zero at a `'\x7b'`. -/
def revScan : List Char → Int → Nat → Option Nat
  | [], _, _ => Option.none
  | c :: rest, depth, k =>
    if c = '}' then revScan rest (depth + 1) (k + 1)
    else if c = '{' then
      (if depth - 1 = 0 then some k else revScan rest (depth - 1) (k + 1))
    else revScan rest depth (k + 1)

/-- Strategy 3 of `_parse_response`: trailing JSON object.  Only attempted
when the last `'\x7d'` sits at an index strictly greater than zero; on a
parse failure of the balanced region the strategy yields nothing. -/
def strategy3 (s : List Char) : Option (List Char × PyVal) :=
  match rfindBrace s with
  | Option.none => Option.none
  | some lastBrace =>
    if lastBrace > 0 then
      match revScan ((s.take (lastBrace + 1)).reverse) 0 0 with
      | Option.none => Option.none
      | some k =>
        let i := lastBrace - k
        match jsonLoads ((s.drop i).take (lastBrace + 1 - i)) with
        | .ok v => some (pyStrip (s.take i), v)
        | .error _ => Option.none
    else Option.none

/-- Model of `executor._parse_response`: the three strategies in order,
falling back to the whole input as markdown with no payload.  The model
is a total function: every exception the source can meet (only
`json.JSONDecodeError`) is caught on every path, so no error outcome
exists. -/
def parse_response (s : List Char) : List Char × PyVal :=
  match strategy1 s with
  | some r => r
  | Option.none =>
    match strategy2 s with
    | some r => r
    | Option.none =>
      match strategy3 s with
      | some r => r
      | Option.none => (s, PyVal.none)

/-! ## Interception Resolution Engine — model of `interceptor.py`

Filesystem paths are plain strings joined by `pjoin` (the model of
`pathlib.Path./`; `Path.resolve()` is the identity here, symlink and
cwd resolution being outside the model).  The filesystem itself is a
snapshot of total query functions: `readJson` merges `read_text` with
`json.loads` (`Option.none` covering both `OSError` and
`json.JSONDecodeError`, which the source always catches together), and
`listDir` returns entry names in iteration order.  Python exceptions that
the source does not catch are explicit: `Except PyErr`. -/

/-- Exceptions the interceptor can leave uncaught, plus the
`FileNotFoundError` that `resolve_paths` raises deliberately. -/
inductive PyErr where
  | attributeError
  | typeError
  | fileNotFound
deriving DecidableEq

/-- Filesystem snapshot. -/
structure FS where
  isFile : String → Bool
  isDir : String → Bool
  readJson : String → Option PyVal
  listDir : String → List String

/-- Path join, the model of `parent / name`. -/
def pjoin (a b : String) : String := a ++ "/" ++ b

/-- Python `v == target` for a string `target` and a JSON-derived `v`:
true only when `v` is the equal string. -/
def pyEqStr (v : PyVal) (target : String) : Bool :=
  match v with
  | PyVal.str t => t == target
  | _ => false

/-- Result record of a successful interception match
(`interceptor.InterceptMatch`). -/
structure InterceptMatch where
  plugin_name : String
  command_name : String
  mcp_server_name : String
  mcp_tool_name : String
  plugin_dir : String
  command_md_path : String
  skill_md_paths : List String
  server_configured : Bool

/-- Model of `parse_skill_name`: require a `':'`, split once at the first
one, fail when either part is empty. -/
def parse_skill_name (s : List Char) : Option (List Char × List Char) :=
  match findSub [':'] s with
  | Option.none => Option.none
  | some i =>
    let p0 := s.take i
    let p1 := s.drop (i + 1)
    if p0.isEmpty || p1.isEmpty then Option.none else some (p0, p1)

/-- The loop over `installed_plugins.json` entries in tier 1 of
`find_plugin_dir`.  A non-dict entry is skipped; a matching name with a
truthy `installPath` passes the value to `Path(...)`, which raises
`TypeError` on a non-string; a string path that is not a directory lets
the loop continue. -/
def manifestScan (fs : FS) (plugin_name : String) :
    List (String × PyVal) → Except PyErr (Option String)
  | [] => .ok Option.none
  | (_, entry) :: rest =>
    match entry with
    | PyVal.dict kvs =>
      let name := pyGetD kvs "name" (PyVal.str "")
      let install_path := pyGetD kvs "installPath" (PyVal.str "")
      if pyEqStr name plugin_name && pyTruthy install_path then
        match install_path with
        | PyVal.str p =>
          if fs.isDir p then .ok (some p) else manifestScan fs plugin_name rest
        | _ => .error PyErr.typeError
      else manifestScan fs plugin_name rest
    | _ => manifestScan fs plugin_name rest

/-- The loop over `marketplaces/*` in tier 4 of `find_plugin_dir`:
for each subdirectory, `plugins/<name>` then `external_plugins/<name>`. -/
def marketScan (fs : FS) (plugin_name marketplaces : String) :
    List String → Option String
  | [] => Option.none
  | m :: rest =>
    let marketplace := pjoin marketplaces m
    if fs.isDir marketplace then
      let c1 := pjoin (pjoin marketplace "plugins") plugin_name
      if fs.isDir c1 then some c1
      else
        let c2 := pjoin (pjoin marketplace "external_plugins") plugin_name
        if fs.isDir c2 then some c2
        else marketScan fs plugin_name marketplaces rest
    else marketScan fs plugin_name marketplaces rest

/-- Tiers 2–4 of `find_plugin_dir` (reached when the manifest tier found
nothing): the live directory, the versioned cache (version directories
sorted by name descending — the stable Python `sorted(..., reverse=True)` —
taking the first), and the marketplaces.  These tiers only test
directories, so they cannot raise. -/
def find_plugin_dir_rest (fs : FS) (plugin_name plugins_root : String) :
    Option String :=
  let live := pjoin (pjoin plugins_root "knowledge-work-plugins") plugin_name
  if fs.isDir live then some live
  else
    let cache_parent :=
      pjoin (pjoin (pjoin plugins_root "cache") "knowledge-work-plugins") plugin_name
    let tier3 : Option String :=
      if fs.isDir cache_parent then
        let subdirs :=
          (fs.listDir cache_parent).filter (fun n => fs.isDir (pjoin cache_parent n))
        match List.insertionSort strGeR subdirs with
        | v :: _ => some (pjoin cache_parent v)
        | [] => Option.none
      else Option.none
    match tier3 with
    | some p => some p
    | Option.none =>
      let marketplaces := pjoin plugins_root "marketplaces"
      if fs.isDir marketplaces then
        marketScan fs plugin_name marketplaces (fs.listDir marketplaces)
      else Option.none

/-- Model of `find_plugin_dir`.  Tier 1 is the manifest lookup (parse
failures pass silently, shape checked with `isinstance` at the top level
and per entry); on no hit the remaining tiers follow.  The caller-facing
default for `plugins_root` (`~/.claude/plugins`) lives outside the model;
`installed_plugins_path = none` resolves to
`plugins_root/installed_plugins.json` as in the source. -/
def find_plugin_dir (fs : FS) (plugin_name : String) (plugins_root : String)
    (installed_plugins_path : Option String) : Except PyErr (Option String) :=
  let ipp := installed_plugins_path.getD (pjoin plugins_root "installed_plugins.json")
  let tier1 : Except PyErr (Option String) :=
    if fs.isFile ipp then
      match fs.readJson ipp with
      | some (PyVal.dict entries) => manifestScan fs plugin_name entries
      | some _ => .ok Option.none
      | Option.none => .ok Option.none
    else .ok Option.none
  match tier1 with
  | .error e => .error e
  | .ok (some p) => .ok (some p)
  | .ok Option.none => .ok (find_plugin_dir_rest fs plugin_name plugins_root)

/-- The loop over `mcpServers` entries in `read_intercepts`: skip non-dict
configs, read `intercepts` with default `[]`, claim on a list containing
the command. -/
def serverScan (command_name : String) :
    List (String × PyVal) → Option (String × List PyVal)
  | [] => Option.none
  | (server_name, server_config) :: rest =>
    match server_config with
    | PyVal.dict conf =>
      (match pyGetD conf "intercepts" (PyVal.list []) with
       | PyVal.list xs =>
         if pyStrMem command_name xs then some (server_name, xs)
         else serverScan command_name rest
       | _ => serverScan command_name rest)
    | _ => serverScan command_name rest

/-- Model of `read_intercepts`.  Note the source calls
`data.get("mcpServers", ...)` without first checking that `data` is a
dict, so a well-formed JSON file whose top level is not an object raises
`AttributeError` (`.error`), unlike a missing or unparseable file. -/
def read_intercepts (fs : FS) (plugin_dir command_name : String) :
    Except PyErr (Option (String × List PyVal)) :=
  let mcp_json_path := pjoin plugin_dir ".mcp.json"
  if fs.isFile mcp_json_path then
    match fs.readJson mcp_json_path with
    | Option.none => .ok Option.none
    | some data =>
      match data with
      | PyVal.dict top =>
        (match pyGetD top "mcpServers" (PyVal.dict []) with
         | PyVal.dict servers => .ok (serverScan command_name servers)
         | _ => .ok Option.none)
      | _ => .error PyErr.attributeError
  else .ok Option.none

/-- The loop over `sorted(skills_dir.iterdir())` in `resolve_paths`:
skip non-directories, include `SKILL.md` when present. -/
def skillScan (fs : FS) (skills_dir : String) : List String → List String
  | [] => []
  | name :: rest =>
    let skill_dir := pjoin skills_dir name
    if fs.isDir skill_dir then
      let skill_md := pjoin skill_dir "SKILL.md"
      if fs.isFile skill_md then skill_md :: skillScan fs skills_dir rest
      else skillScan fs skills_dir rest
    else skillScan fs skills_dir rest

/-- Model of `resolve_paths`: raise `FileNotFoundError` when the command
markdown is absent, otherwise collect `skills/*/SKILL.md` over the
children of `skills/` sorted ascending by name (paths of a common parent
compare by entry name). -/
def resolve_paths (fs : FS) (plugin_dir command_name : String) :
    Except PyErr (String × List String) :=
  let command_md := pjoin (pjoin plugin_dir "commands") (command_name ++ ".md")
  if fs.isFile command_md then
    let skills_dir := pjoin plugin_dir "skills"
    let skill_md_paths :=
      if fs.isDir skills_dir then
        skillScan fs skills_dir (List.insertionSort strLeR (fs.listDir skills_dir))
      else []
    .ok (command_md, skill_md_paths)
  else .error PyErr.fileNotFound

/-- Model of `check_server_configured`.  The same missing top-level shape
check as in `read_intercepts`: a non-object top level raises
`AttributeError`.  The default path `~/.claude/mcp.json` lives outside
the model. -/
def check_server_configured (fs : FS) (server_name : String)
    (mcp_json_path : String) : Except PyErr Bool :=
  if fs.isFile mcp_json_path then
    match fs.readJson mcp_json_path with
    | Option.none => .ok false
    | some data =>
      match data with
      | PyVal.dict top =>
        (match pyGetD top "mcpServers" (PyVal.dict []) with
         | PyVal.dict servers => .ok (servers.any (fun e => e.1 == server_name))
         | _ => .ok false)
      | _ => .error PyErr.attributeError
  else .ok false

/-- Model of `find_intercept`: parse, resolve the directory, look up the
claim, resolve paths (catching only `FileNotFoundError`), probe the
configuration, assemble the record.  Every other exception of the stages
propagates to the caller. -/
def find_intercept (fs : FS) (skill_name : List Char) (plugins_root : String)
    (installed_plugins_path : Option String) (mcp_json_path : String) :
    Except PyErr (Option InterceptMatch) :=
  match parse_skill_name skill_name with
  | Option.none => .ok Option.none
  | some (pn, cn) =>
    let plugin_name := String.mk pn
    let command_name := String.mk cn
    match find_plugin_dir fs plugin_name plugins_root installed_plugins_path with
    | .error e => .error e
    | .ok Option.none => .ok Option.none
    | .ok (some plugin_dir) =>
      match read_intercepts fs plugin_dir command_name with
      | .error e => .error e
      | .ok Option.none => .ok Option.none
      | .ok (some (server_name, _intercepts)) =>
        match resolve_paths fs plugin_dir command_name with
        | .error PyErr.fileNotFound => .ok Option.none
        | .error e => .error e
        | .ok (command_md_path, skill_md_paths) =>
          match check_server_configured fs server_name mcp_json_path with
          | .error e => .error e
          | .ok server_configured =>
            .ok (some
              { plugin_name := plugin_name
                command_name := command_name
                mcp_server_name := server_name
                mcp_tool_name :=
                  "mcp__" ++ server_name ++ "__execute_plugin_command"
                plugin_dir := plugin_dir
                command_md_path := command_md_path
                skill_md_paths := skill_md_paths
                server_configured := server_configured })

/-! ## Spec-side definitions

These transcribe the description in the specification of the search and lookup
policies, to be compared with the source-side definitions above. -/

/-- The manifest entries the directory resolver consults: the parsed
top-level object of `installed_plugins.json` when the file exists and
parses to an object, otherwise nothing. -/
def manifestEntriesOf (fs : FS) (ipp : String) : List (String × PyVal) :=
  if fs.isFile ipp then
    match fs.readJson ipp with
    | some (PyVal.dict entries) => entries
    | _ => []
  else []

/-- A manifest entry the source can scan without raising: if its `name`
equals the target and its `installPath` is truthy, the `installPath` is a
string.  The amended directory-resolution claim is conditional on every
entry being benign. -/
def benignEntry (plugin_name : String) (e : String × PyVal) : Bool :=
  match e.2 with
  | PyVal.dict kvs =>
    (if pyEqStr (pyGetD kvs "name" (PyVal.str "")) plugin_name
        && pyTruthy (pyGetD kvs "installPath" (PyVal.str "")) then
      match pyGetD kvs "installPath" (PyVal.str "") with
      | PyVal.str _ => true
      | _ => false
    else true)
  | _ => true

/-- Spec-side tier 1: the first manifest entry whose `name` equals the
target and whose `installPath` is a non-empty string naming an existing
directory. -/
def manifestHitSpec (fs : FS) (plugin_name : String) :
    List (String × PyVal) → Option String
  | [] => Option.none
  | (_, entry) :: rest =>
    match entry with
    | PyVal.dict kvs =>
      (match pyGetD kvs "name" (PyVal.str ""), pyGetD kvs "installPath" (PyVal.str "") with
       | PyVal.str n, PyVal.str p =>
         if n == plugin_name && p != "" && fs.isDir p then some p
         else manifestHitSpec fs plugin_name rest
       | _, _ => manifestHitSpec fs plugin_name rest)
    | _ => manifestHitSpec fs plugin_name rest

/-- Lexicographically greatest string of a list (Python string order). -/
def maxStrByLe (xs : List String) : Option String :=
  match xs with
  | [] => Option.none
  | y :: ys => some (ys.foldl (fun a b => if strLeb a b then b else a) y)

/-- Spec-side tier 4: first marketplace (in listing order) offering
`plugins/<name>` and then `external_plugins/<name>`. -/
def marketHitSpec (fs : FS) (plugin_name marketplaces : String) : Option String :=
  (fs.listDir marketplaces).findSome? (fun m =>
    let marketplace := pjoin marketplaces m
    if fs.isDir marketplace then
      (if fs.isDir (pjoin (pjoin marketplace "plugins") plugin_name) then
        some (pjoin (pjoin marketplace "plugins") plugin_name)
      else if fs.isDir (pjoin (pjoin marketplace "external_plugins") plugin_name) then
        some (pjoin (pjoin marketplace "external_plugins") plugin_name)
      else Option.none)
    else Option.none)

/-- Spec-side directory resolution: the four source locations in strict
priority order, first hit wins — manifest entry, live directory, cache
version with the lexicographically greatest name, marketplaces. -/
def findPluginDirSpec (fs : FS) (plugin_name plugins_root : String)
    (installed_plugins_path : Option String) : Option String :=
  let ipp := installed_plugins_path.getD (pjoin plugins_root "installed_plugins.json")
  let tier1 := manifestHitSpec fs plugin_name (manifestEntriesOf fs ipp)
  let live := pjoin (pjoin plugins_root "knowledge-work-plugins") plugin_name
  let tier2 := if fs.isDir live then some live else Option.none
  let cache_parent :=
    pjoin (pjoin (pjoin plugins_root "cache") "knowledge-work-plugins") plugin_name
  let tier3 :=
    if fs.isDir cache_parent then
      (maxStrByLe
        ((fs.listDir cache_parent).filter
          (fun n => fs.isDir (pjoin cache_parent n)))).map (pjoin cache_parent)
    else Option.none
  let tier4 :=
    if fs.isDir (pjoin plugins_root "marketplaces") then
      marketHitSpec fs plugin_name (pjoin plugins_root "marketplaces")
    else Option.none
  tier1 <|> ((tier2 <|> tier3) <|> tier4)

/-- Spec-side claim predicate of the intercept lookup: a handler claims a
command when its configuration declares an `intercepts` list containing
the command. -/
def serverClaims (command_name : String) (config : PyVal) : Bool :=
  match config with
  | PyVal.dict conf =>
    (match pyGetD conf "intercepts" (PyVal.list []) with
     | PyVal.list xs => pyStrMem command_name xs
     | _ => false)
  | _ => false

/-- The full `intercepts` list of the claimed handler. -/
def interceptsOf (config : PyVal) : List PyVal :=
  match config with
  | PyVal.dict conf =>
    (match pyGetD conf "intercepts" (PyVal.list []) with
     | PyVal.list xs => xs
     | _ => [])
  | _ => []

/-! ## Concrete filesystem snapshots and inputs used by the theorems -/

/-- Plugin known only through a cache with two versions, plus a manifest
that names a different plugin. -/
def fsCacheTwo : FS where
  isFile := fun p => p == "/r/installed_plugins.json"
  isDir := fun p =>
    p == "/r/cache/knowledge-work-plugins/legal"
      || p == "/r/cache/knowledge-work-plugins/legal/1.0.0"
      || p == "/r/cache/knowledge-work-plugins/legal/2.0.0"
  readJson := fun p =>
    if p == "/r/installed_plugins.json" then
      some (PyVal.dict
        [("k", PyVal.dict [("name", PyVal.str "other"), ("installPath", PyVal.str "/x")])])
    else Option.none
  listDir := fun p =>
    if p == "/r/cache/knowledge-work-plugins/legal" then ["1.0.0", "2.0.0"] else []

/-- Manifest whose matching entry carries a truthy non-string
`installPath`, with a perfectly good live directory also present. -/
def fsBadManifest : FS where
  isFile := fun p => p == "/r/installed_plugins.json"
  isDir := fun p => p == "/r/knowledge-work-plugins/legal"
  readJson := fun p =>
    if p == "/r/installed_plugins.json" then
      some (PyVal.dict
        [("k", PyVal.dict [("name", PyVal.str "legal"), ("installPath", PyVal.int 5)])])
    else Option.none
  listDir := fun _ => []

/-- Configuration files that are valid JSON but whose top level is an
array rather than an object. -/
def fsArrayTop : FS where
  isFile := fun p => p == "/p/.mcp.json" || p == "/m.json"
  isDir := fun _ => false
  readJson := fun p =>
    if p == "/p/.mcp.json" || p == "/m.json" then
      some (PyVal.list [PyVal.int 1, PyVal.int 2])
    else Option.none
  listDir := fun _ => []

/-- A live plugin whose own `.mcp.json` is a valid JSON array at top
level. -/
def fsLiveArrayMcp : FS where
  isFile := fun p => p == "/r/knowledge-work-plugins/legal/.mcp.json"
  isDir := fun p => p == "/r/knowledge-work-plugins/legal"
  readJson := fun p =>
    if p == "/r/knowledge-work-plugins/legal/.mcp.json" then
      some (PyVal.list [PyVal.str "oops"])
    else Option.none
  listDir := fun _ => []

/-- Two handler bindings; only the second claims the target command. -/
def fsTwoServers : FS where
  isFile := fun p => p == "/p/.mcp.json"
  isDir := fun _ => false
  readJson := fun p =>
    if p == "/p/.mcp.json" then
      some (PyVal.dict [("mcpServers", PyVal.dict
        [("server-a", PyVal.dict [("intercepts", PyVal.list [PyVal.str "other"])]),
         ("server-b", PyVal.dict
           [("type", PyVal.str "stdio"),
            ("intercepts", PyVal.list
              [PyVal.str "review-contract", PyVal.str "draft-contract"])])])])
    else Option.none
  listDir := fun _ => []

/-- A plugin directory with one command file and three skill
subdirectories, one of which lacks `SKILL.md`; listing order is not
sorted. -/
def fsSkills : FS where
  isFile := fun p =>
    p == "/p/commands/review-contract.md"
      || p == "/p/skills/analysis/SKILL.md"
      || p == "/p/skills/redlining/SKILL.md"
  isDir := fun p =>
    p == "/p/skills" || p == "/p/skills/analysis" || p == "/p/skills/empty"
      || p == "/p/skills/redlining"
  readJson := fun _ => Option.none
  listDir := fun p =>
    if p == "/p/skills" then ["redlining", "analysis", "empty"] else []

/-- A pattern has no non-trivial self-overlap when no proper non-empty
suffix of it is one of its prefixes; both fence literals satisfy this, which
rules out occurrences straddling a concatenation boundary. -/
def selfOverlapFreeB (P : List Char) : Bool :=
  (List.range P.length).all (fun d => decide (d = 0) || !((P.drop d).isPrefixOf P))

/-- The path-resolver keeps a `skills/` child when it is a directory
containing `SKILL.md`. -/
def keepSkill (fs : FS) (skills_dir n : String) : Bool :=
  fs.isDir (pjoin skills_dir n) && fs.isFile (pjoin (pjoin skills_dir n) "SKILL.md")

/-- Spec-side reference-file selection: the kept children of `skills/` in
ascending name order. -/
def skillNamesSpec (fs : FS) (skills_dir : String) : List String :=
  (List.insertionSort strLeR (fs.listDir skills_dir)).filter (keepSkill fs skills_dir)

/-! ## Order facts about the modelled Python string comparison -/

theorem char_eq_of_toNat_eq {c d : Char} (h : c.toNat = d.toNat) : c = d :=
  Char.ext (UInt32.eq_of_val_eq (Fin.ext h))

theorem bnot_true_iff (b : Bool) : (!b) = true ↔ b = false := by
  cases b <;> simp

theorem bool_eq_false_of_ne_true {b : Bool} (h : ¬ b = true) : b = false := by
  cases b
  · rfl
  · exact absurd rfl h

theorem lexLtb_irrefl (a : List Char) : lexLtb a a = false := by
  induction a with
  | nil => rfl
  | cons x xs ih => simp [lexLtb, ih]

theorem lexLtb_trans {a b c : List Char} (hab : lexLtb a b = true)
    (hbc : lexLtb b c = true) : lexLtb a c = true := by
  induction a generalizing b c with
  | nil =>
    cases b with
    | nil => simp [lexLtb] at hab
    | cons y ys =>
      cases c with
      | nil => simp [lexLtb] at hbc
      | cons z zs => simp [lexLtb]
  | cons x xs ih =>
    cases b with
    | nil => simp [lexLtb] at hab
    | cons y ys =>
      cases c with
      | nil => simp [lexLtb] at hbc
      | cons z zs =>
        simp only [lexLtb] at hab hbc ⊢
        rcases Nat.lt_trichotomy x.toNat y.toNat with hxy | hxy | hxy
        · rcases Nat.lt_trichotomy y.toNat z.toNat with hyz | hyz | hyz
          · rw [if_pos (by omega)]
          · rw [if_pos (by omega)]
          · rw [if_neg (by omega), if_pos (by omega)] at hbc
            exact Bool.noConfusion hbc
        · rcases Nat.lt_trichotomy y.toNat z.toNat with hyz | hyz | hyz
          · rw [if_pos (by omega)]
          · rw [if_neg (by omega), if_neg (by omega)] at hab
            rw [if_neg (by omega), if_neg (by omega)] at hbc
            rw [if_neg (by omega), if_neg (by omega)]
            exact ih hab hbc
          · rw [if_neg (by omega), if_pos (by omega)] at hbc
            exact Bool.noConfusion hbc
        · rw [if_neg (by omega), if_pos (by omega)] at hab
          exact Bool.noConfusion hab

theorem lexLtb_eq_of_not {a b : List Char} (hab : lexLtb a b = false)
    (hba : lexLtb b a = false) : a = b := by
  induction a generalizing b with
  | nil =>
    cases b with
    | nil => rfl
    | cons y ys => simp [lexLtb] at hab
  | cons x xs ih =>
    cases b with
    | nil => simp [lexLtb] at hba
    | cons y ys =>
      simp only [lexLtb] at hab hba
      rcases Nat.lt_trichotomy x.toNat y.toNat with hxy | hxy | hxy
      · rw [if_pos (by omega)] at hab
        exact Bool.noConfusion hab
      · rw [if_neg (by omega), if_neg (by omega)] at hab
        rw [if_neg (by omega), if_neg (by omega)] at hba
        rw [char_eq_of_toNat_eq hxy, ih hab hba]
      · rw [if_pos (by omega)] at hba
        exact Bool.noConfusion hba

theorem lexLtb_asymm {a b : List Char} (hab : lexLtb a b = true) :
    lexLtb b a = false := by
  by_contra h
  have hba : lexLtb b a = true := by
    cases hv : lexLtb b a with
    | true => rfl
    | false => exact absurd hv h
  have h2 := lexLtb_trans hab hba
  rw [lexLtb_irrefl] at h2
  exact Bool.noConfusion h2

theorem strLeb_refl (a : String) : strLeb a a = true := by
  show (!(lexLtb a.toList a.toList)) = true
  rw [bnot_true_iff]
  exact lexLtb_irrefl a.toList

theorem strLeb_total (a b : String) : strLeb a b = true ∨ strLeb b a = true := by
  by_cases h : lexLtb b.toList a.toList = true
  · right
    show (!(lexLtb a.toList b.toList)) = true
    rw [bnot_true_iff]
    exact lexLtb_asymm h
  · left
    show (!(lexLtb b.toList a.toList)) = true
    rw [bnot_true_iff]
    exact bool_eq_false_of_ne_true h

theorem strLeb_eq_bnot (a b : String) :
    strLeb a b = !(lexLtb b.toList a.toList) := rfl

theorem strLeb_trans {a b c : String} (hab : strLeb a b = true)
    (hbc : strLeb b c = true) : strLeb a c = true := by
  rw [strLeb_eq_bnot, bnot_true_iff] at hab hbc
  rw [strLeb_eq_bnot, bnot_true_iff]
  by_contra hca0
  have hca : lexLtb c.toList a.toList = true := by
    cases hv : lexLtb c.toList a.toList with
    | true => rfl
    | false => exact absurd hv hca0
  by_cases hbc3 : lexLtb b.toList c.toList = true
  · have h2 := lexLtb_trans hbc3 hca
    rw [h2] at hab
    exact Bool.noConfusion hab
  · have heq : b.toList = c.toList :=
      lexLtb_eq_of_not (bool_eq_false_of_ne_true hbc3) hbc
    rw [heq, hca] at hab
    exact Bool.noConfusion hab

theorem strLeb_antisymm {a b : String} (hab : strLeb a b = true)
    (hba : strLeb b a = true) : a = b := by
  rw [strLeb_eq_bnot, bnot_true_iff] at hab hba
  have h := lexLtb_eq_of_not hba hab
  cases a
  cases b
  simp only [String.toList] at h
  exact congrArg String.mk h

instance : IsTotal String strLeR := ⟨fun a b => strLeb_total a b⟩

instance : IsTrans String strLeR := ⟨fun _ _ _ => strLeb_trans⟩

instance : IsTotal String strGeR :=
  ⟨fun a b => (strLeb_total b a).elim Or.inl Or.inr⟩

instance : IsTrans String strGeR := ⟨fun _ _ _ h1 h2 => strLeb_trans h2 h1⟩


/-! ## The lexicographic maximum and the head of a descending stable sort -/

theorem foldlMax_mem (ys : List String) (y : String) :
    ys.foldl (fun a b => if strLeb a b then b else a) y ∈ y :: ys := by
  induction ys generalizing y with
  | nil => simp
  | cons b bs ih =>
    simp only [List.foldl_cons]
    by_cases hc : strLeb y b = true
    · rw [if_pos hc]
      exact List.mem_cons_of_mem y (ih b)
    · rw [if_neg hc]
      rcases List.mem_cons.mp (ih y) with h | h
      · exact List.mem_cons.mpr (Or.inl h)
      · exact List.mem_cons_of_mem y (List.mem_cons_of_mem b h)

theorem foldlMax_ge (ys : List String) (y : String) :
    strLeb y (ys.foldl (fun a b => if strLeb a b then b else a) y) = true ∧
      ∀ x ∈ ys, strLeb x (ys.foldl (fun a b => if strLeb a b then b else a) y) = true := by
  induction ys generalizing y with
  | nil => simp [strLeb_refl]
  | cons b bs ih =>
    simp only [List.foldl_cons]
    by_cases hc : strLeb y b = true
    · rw [if_pos hc]
      rcases ih b with ⟨h1, h2⟩
      refine ⟨strLeb_trans hc h1, ?_⟩
      intro x hx
      rcases List.mem_cons.mp hx with hx2 | hx2
      · cases hx2
        exact h1
      · exact h2 x hx2
    · rw [if_neg hc]
      rcases ih y with ⟨h1, h2⟩
      refine ⟨h1, ?_⟩
      intro x hx
      rcases List.mem_cons.mp hx with hx2 | hx2
      · cases hx2
        have hby : strLeb b y = true := (strLeb_total y b).resolve_left hc
        exact strLeb_trans hby h1
      · exact h2 x hx2

theorem maxStrByLe_spec {xs : List String} {m : String}
    (h : maxStrByLe xs = some m) :
    m ∈ xs ∧ ∀ x ∈ xs, strLeb x m = true := by
  cases xs with
  | nil => exact Option.noConfusion h
  | cons y ys =>
    simp only [maxStrByLe, Option.some.injEq] at h
    subst h
    refine ⟨foldlMax_mem ys y, ?_⟩
    intro x hx
    rcases List.mem_cons.mp hx with hx2 | hx2
    · cases hx2
      exact (foldlMax_ge ys y).1
    · exact (foldlMax_ge ys y).2 x hx2

theorem sortDesc_head_max {xs : List String} {v : String} {rest : List String}
    (h : List.insertionSort strGeR xs = v :: rest) :
    maxStrByLe xs = some v := by
  have hperm : (v :: rest).Perm xs := by
    rw [← h]
    exact List.perm_insertionSort strGeR xs
  have hsorted : List.Sorted strGeR (v :: rest) := by
    rw [← h]
    exact List.sorted_insertionSort strGeR xs
  have hvmem : v ∈ xs := hperm.mem_iff.mp (List.mem_cons_self v rest)
  have hvge : ∀ x ∈ xs, strLeb x v = true := by
    intro x hx
    rcases List.mem_cons.mp (hperm.mem_iff.mpr hx) with hx2 | hx2
    · cases hx2
      exact strLeb_refl v
    · exact (List.pairwise_cons.mp hsorted).1 x hx2
  cases hm : maxStrByLe xs with
  | none =>
    cases xs with
    | nil => exact absurd hvmem (by simp)
    | cons y ys => exact Option.noConfusion hm
  | some m =>
    rcases maxStrByLe_spec hm with ⟨hmem, hge⟩
    have h1 : strLeb m v = true := hvge m hmem
    have h2 : strLeb v m = true := hge v hvmem
    rw [strLeb_antisymm h1 h2]

theorem sortDesc_nil_iff (xs : List String) :
    List.insertionSort strGeR xs = [] ↔ xs = [] := by
  constructor
  · intro h
    have hperm := List.perm_insertionSort strGeR xs
    rw [h] at hperm
    exact hperm.symm.eq_nil
  · intro h
    subst h
    rfl


/-! ## Substring search lemmas -/

theorem findSub_some {p t : List Char} {n : Nat} (h : findSub p t = some n) :
    p.isPrefixOf (t.drop n) = true ∧ ∀ j, j < n → p.isPrefixOf (t.drop j) = false := by
  induction t generalizing n with
  | nil =>
    simp only [findSub] at h
    by_cases hp : p.isEmpty
    · rw [if_pos hp] at h
      cases h
      refine ⟨?_, fun j hj => absurd hj (by omega)⟩
      cases p with
      | nil => rfl
      | cons a as => exact absurd hp (by simp)
    · rw [if_neg hp] at h
      exact Option.noConfusion h
  | cons c rest ih =>
    simp only [findSub] at h
    by_cases hpre : p.isPrefixOf (c :: rest) = true
    · rw [if_pos hpre] at h
      cases h
      exact ⟨hpre, fun j hj => absurd hj (by omega)⟩
    · rw [if_neg hpre] at h
      cases hrec : findSub p rest with
      | none =>
        rw [hrec] at h
        exact Option.noConfusion h
      | some m =>
        rw [hrec] at h
        rw [show Option.map (fun x => x + 1) (some m) = some (m + 1) from rfl] at h
        cases h
        rcases ih hrec with ⟨h1, h2⟩
        refine ⟨h1, ?_⟩
        intro j hj
        cases j with
        | zero => exact bool_eq_false_of_ne_true hpre
        | succ k => exact h2 k (by omega)

theorem findSub_of_min {p t : List Char} {n : Nat}
    (hm : p.isPrefixOf (t.drop n) = true)
    (hmin : ∀ j, j < n → p.isPrefixOf (t.drop j) = false) :
    findSub p t = some n := by
  induction t generalizing n with
  | nil =>
    have hm2 : p.isPrefixOf ([] : List Char) = true := List.drop_nil ▸ hm
    cases p with
    | nil =>
      cases n with
      | zero => rfl
      | succ m =>
        have h0 := hmin 0 (by omega)
        exact Bool.noConfusion h0
    | cons a as => exact Bool.noConfusion hm2
  | cons c rest ih =>
    cases n with
    | zero =>
      simp only [List.drop_zero] at hm
      simp only [findSub]
      rw [if_pos hm]
    | succ m =>
      have h0 := hmin 0 (by omega)
      simp only [List.drop_zero] at h0
      simp only [findSub]
      rw [if_neg (by rw [h0]; exact Bool.noConfusion)]
      have hrec : findSub p rest = some m := by
        apply ih
        · exact hm
        · intro j hj
          exact hmin (j + 1) (by omega)
      rw [hrec]
      rfl

theorem findSub_none {p t : List Char} (h : findSub p t = Option.none)
    (hp : p ≠ []) : ∀ j, p.isPrefixOf (t.drop j) = false := by
  induction t with
  | nil =>
    intro j
    rw [List.drop_nil]
    cases p with
    | nil => exact absurd rfl hp
    | cons a as => rfl
  | cons c rest ih =>
    simp only [findSub] at h
    by_cases hpre : p.isPrefixOf (c :: rest) = true
    · rw [if_pos hpre] at h
      exact Option.noConfusion h
    · rw [if_neg hpre] at h
      have hrec : findSub p rest = Option.none := by
        cases hv : findSub p rest with
        | none => rfl
        | some m =>
          rw [hv] at h
          exact Option.noConfusion h
      intro j
      cases j with
      | zero => exact bool_eq_false_of_ne_true hpre
      | succ k => exact ih hrec k

theorem prefix_of_append_of_le {P D X : List Char} (h : P <+: D ++ X)
    (hle : P.length ≤ D.length) : P <+: D := by
  rw [List.prefix_iff_eq_take] at h
  rw [List.take_append_eq_append_take] at h
  rw [Nat.sub_eq_zero_of_le hle] at h
  simp only [List.take_zero, List.append_nil] at h
  rw [h]
  exact List.take_prefix P.length D

theorem no_straddle {P A B : List Char} (hP : P ≠ [])
    (hfree : selfOverlapFreeB P = true) (hA : containsSub P A = false)
    {i : Nat} (hi : i < A.length) :
    P.isPrefixOf ((A ++ (P ++ B)).drop i) = false := by
  have hAnone : findSub P A = Option.none := by
    cases hv : findSub P A with
    | none => rfl
    | some m =>
      simp only [containsSub, hv, Option.isSome_some] at hA
      exact Bool.noConfusion hA
  by_contra hcon
  have hpre : P <+: (A.drop i) ++ (P ++ B) := by
    rw [← List.drop_append_of_le_length (by omega)]
    exact List.isPrefixOf_iff_prefix.mp (by
      cases hv : P.isPrefixOf ((A ++ (P ++ B)).drop i) with
      | true => rfl
      | false => exact absurd hv hcon)
  by_cases hlen : P.length ≤ (A.drop i).length
  · have hPD : P <+: A.drop i := prefix_of_append_of_le hpre hlen
    have h2 : P.isPrefixOf (A.drop i) = true := List.isPrefixOf_iff_prefix.mpr hPD
    rw [findSub_none hAnone hP i] at h2
    exact Bool.noConfusion h2
  · have hDlt : (A.drop i).length < P.length := by omega
    have hDpos : 0 < (A.drop i).length := by
      rw [List.length_drop]
      omega
    have hd : (A.drop i).length ≤ P.length := by omega
    rw [List.prefix_iff_eq_take] at hpre
    rw [List.take_append_eq_append_take] at hpre
    rw [List.take_of_length_le hd] at hpre
    rw [List.take_append_eq_append_take] at hpre
    rw [Nat.sub_eq_zero_of_le (Nat.sub_le P.length (A.drop i).length)] at hpre
    rw [List.take_zero, List.append_nil] at hpre
    have hdropP :
        P.drop (A.drop i).length = P.take (P.length - (A.drop i).length) := by
      conv_lhs => rw [hpre]
      rw [List.drop_left]
    have hov : (P.drop (A.drop i).length) <+: P := by
      rw [hdropP]
      exact List.take_prefix _ P
    have hall := List.all_eq_true.mp hfree (A.drop i).length
      (List.mem_range.mpr (by omega))
    simp only [Bool.or_eq_true, decide_eq_true_eq, bnot_true_iff] at hall
    rcases hall with hz | hno
    · omega
    · have h3 : (P.drop (A.drop i).length).isPrefixOf P = true :=
        List.isPrefixOf_iff_prefix.mpr hov
      rw [hno] at h3
      exact Bool.noConfusion h3

theorem findSub_append_pattern {P A B : List Char} (hP : P ≠ [])
    (hfree : selfOverlapFreeB P = true) (hA : containsSub P A = false) :
    findSub P (A ++ (P ++ B)) = some A.length := by
  apply findSub_of_min
  · rw [List.drop_left]
    exact List.isPrefixOf_iff_prefix.mpr (List.prefix_append P B)
  · intro j hj
    exact no_straddle hP hfree hA hj


/-! ## Fence regex lemmas -/

theorem fenceTail_of_clean {jstr : List Char} (hne : jstr ≠ [])
    (hws : jstr.takeWhile isPySpace = [])
    (hnof : containsSub nlFence jstr = false) :
    fenceTail ('\n' :: (jstr ++ nlFence)) = some jstr := by
  have htw : (('\n' :: (jstr ++ nlFence)).takeWhile isPySpace) = ['\n'] := by
    cases hj : jstr with
    | nil => exact absurd hj hne
    | cons c cs =>
      have hcf : isPySpace c = false := by
        rw [hj, List.takeWhile_cons] at hws
        by_cases hv : isPySpace c = true
        · rw [if_pos hv] at hws
          exact List.noConfusion hws
        · exact bool_eq_false_of_ne_true hv
      rw [List.cons_append, List.takeWhile_cons, List.takeWhile_cons]
      rw [if_pos (show isPySpace '\n' = true by decide)]
      rw [if_neg (by rw [hcf]; exact Bool.noConfusion)]
  have hfind : findSub nlFence (jstr ++ nlFence) = some jstr.length := by
    rw [show jstr ++ nlFence = jstr ++ (nlFence ++ []) by rw [List.append_nil]]
    exact findSub_append_pattern (by decide) (by decide) hnof
  unfold fenceTail
  rw [htw]
  simp only [List.length_cons, List.length_nil, fenceTailAux]
  rw [List.getElem?_cons_zero]
  simp only [List.drop_succ_cons, List.drop_zero]
  rw [hfind]
  simp only [List.take_left]

theorem fenceSearch_eq {t : List Char} {n : Nat} {g : List Char}
    (hmin : ∀ j, j < n → fenceOpen.isPrefixOf (t.drop j) = false)
    (hmatch : fenceOpen.isPrefixOf (t.drop n) = true)
    (htail : fenceTail ((t.drop n).drop 7) = some g) :
    ∀ i, fenceSearch t i = some (i + n, g) := by
  induction t generalizing n with
  | nil =>
    rw [List.drop_nil] at hmatch
    exact absurd hmatch (by decide)
  | cons c rest ih =>
    intro i
    cases n with
    | zero =>
      rw [List.drop_zero] at hmatch htail
      simp only [fenceSearch]
      rw [if_pos hmatch, htail]
      simp
    | succ m =>
      have h0 : fenceOpen.isPrefixOf (c :: rest) = false := by
        have h1 := hmin 0 (by omega)
        rw [List.drop_zero] at h1
        exact h1
      simp only [fenceSearch]
      rw [if_neg (by rw [h0]; exact Bool.noConfusion)]
      have hmin2 : ∀ j, j < m → fenceOpen.isPrefixOf (rest.drop j) = false := by
        intro j hj
        exact hmin (j + 1) (by omega)
      have hrec := ih hmin2 hmatch htail (i + 1)
      rw [hrec]
      rw [show i + 1 + m = i + (m + 1) by omega]

/-! ## Backward scan and rfind lemmas -/

theorem revScan_append {l₂ : List Char} : ∀ {l₁ : List Char} {d : Int} {k r : Nat},
    revScan l₁ d k = some r → revScan (l₁ ++ l₂) d k = some r := by
  intro l₁
  induction l₁ with
  | nil =>
    intro d k r h
    exact Option.noConfusion h
  | cons c cs ih =>
    intro d k r h
    rw [List.cons_append]
    simp only [revScan] at h ⊢
    by_cases h1 : c = '}'
    · rw [if_pos h1] at h ⊢
      exact ih h
    · rw [if_neg h1] at h ⊢
      by_cases h2 : c = '{'
      · rw [if_pos h2] at h ⊢
        by_cases h3 : d - 1 = 0
        · rw [if_pos h3] at h ⊢
          exact h
        · rw [if_neg h3] at h ⊢
          exact ih h
      · rw [if_neg h2] at h ⊢
        exact ih h

theorem rfindBrace_append (l₁ l₂ : List Char) :
    rfindBrace (l₁ ++ l₂) =
      match rfindBrace l₂ with
      | some i => some (l₁.length + i)
      | Option.none => rfindBrace l₁ := by
  induction l₁ with
  | nil =>
    rw [List.nil_append]
    cases h : rfindBrace l₂ with
    | some i => simp
    | none => rfl
  | cons c cs ih =>
    rw [List.cons_append]
    simp only [rfindBrace, ih]
    cases h : rfindBrace l₂ with
    | some i =>
      show some (cs.length + i + 1) = some ((c :: cs).length + i)
      rw [List.length_cons]
      rw [show cs.length + i + 1 = cs.length + 1 + i by omega]
    | none => rfl

theorem rfindBrace_none_of {l : List Char} (h : '}' ∉ l) :
    rfindBrace l = Option.none := by
  induction l with
  | nil => rfl
  | cons c cs ih =>
    have h2 : rfindBrace cs = Option.none :=
      ih (fun hm => h (List.mem_cons_of_mem c hm))
    simp only [rfindBrace, h2]
    rw [if_neg (show ¬ c = '}' from fun he =>
      h (by rw [← he]; exact List.mem_cons_self c cs))]


/-! ## Loop lemmas for the interceptor -/

theorem manifestScan_eq {fs : FS} {pn : String} {entries : List (String × PyVal)}
    (h : entries.all (benignEntry pn) = true) :
    manifestScan fs pn entries = .ok (manifestHitSpec fs pn entries) := by
  induction entries with
  | nil => rfl
  | cons e rest ih =>
    have hbe : benignEntry pn e = true :=
      List.all_eq_true.mp h e (List.mem_cons_self e rest)
    have hrest : rest.all (benignEntry pn) = true := by
      rw [List.all_eq_true]
      intro x hx
      exact List.all_eq_true.mp h x (List.mem_cons_of_mem e hx)
    obtain ⟨k, entry⟩ := e
    cases entry with
    | dict kvs =>
      simp only [benignEntry] at hbe
      simp only [manifestScan, manifestHitSpec]
      cases hname : pyGetD kvs "name" (PyVal.str "") with
      | str nstr =>
        cases hip : pyGetD kvs "installPath" (PyVal.str "") with
        | str p =>
          by_cases hn : nstr = pn
          · by_cases hp0 : p = ""
            · simp [pyEqStr, pyTruthy, hn, hp0, ih hrest]
            · by_cases hdir : fs.isDir p = true
              · simp [pyEqStr, pyTruthy, hn, hp0, hdir]
              · simp [pyEqStr, pyTruthy, hn, hp0, hdir,
                  bool_eq_false_of_ne_true hdir, ih hrest]
          · simp [pyEqStr, hn, ih hrest]
        | none =>
          rw [hname, hip] at hbe
          simp [pyEqStr, pyTruthy, ih hrest]
        | bool b =>
          rw [hname, hip] at hbe
          by_cases hn : nstr = pn
          · cases b with
            | true =>
              rw [if_pos (by simp [pyEqStr, pyTruthy, hn])] at hbe
              exact Bool.noConfusion hbe
            | false => simp [pyEqStr, pyTruthy, hn, ih hrest]
          · simp [pyEqStr, hn, ih hrest]
        | int n =>
          rw [hname, hip] at hbe
          by_cases hn : nstr = pn
          · by_cases hz : n = 0
            · simp [pyEqStr, pyTruthy, hn, hz, ih hrest]
            · rw [if_pos (by simp [pyEqStr, pyTruthy, hn, hz])] at hbe
              exact Bool.noConfusion hbe
          · simp [pyEqStr, hn, ih hrest]
        | numFloat lex =>
          rw [hname, hip] at hbe
          by_cases hn : nstr = pn
          · by_cases ht : pyTruthy (PyVal.numFloat lex) = true
            · rw [if_pos (by simp [pyEqStr, hn, ht])] at hbe
              exact Bool.noConfusion hbe
            · simp [pyEqStr, hn, bool_eq_false_of_ne_true ht, ih hrest]
          · simp [pyEqStr, hn, ih hrest]
        | list xs =>
          rw [hname, hip] at hbe
          by_cases hn : nstr = pn
          · by_cases ht : pyTruthy (PyVal.list xs) = true
            · rw [if_pos (by simp [pyEqStr, hn, ht])] at hbe
              exact Bool.noConfusion hbe
            · simp [pyEqStr, hn, bool_eq_false_of_ne_true ht, ih hrest]
          · simp [pyEqStr, hn, ih hrest]
        | dict kvs2 =>
          rw [hname, hip] at hbe
          by_cases hn : nstr = pn
          · by_cases ht : pyTruthy (PyVal.dict kvs2) = true
            · rw [if_pos (by simp [pyEqStr, hn, ht])] at hbe
              exact Bool.noConfusion hbe
            · simp [pyEqStr, hn, bool_eq_false_of_ne_true ht, ih hrest]
          · simp [pyEqStr, hn, ih hrest]
      | none => simp [pyEqStr, ih hrest]
      | bool b => simp [pyEqStr, ih hrest]
      | int n => simp [pyEqStr, ih hrest]
      | numFloat lex => simp [pyEqStr, ih hrest]
      | list xs => simp [pyEqStr, ih hrest]
      | dict kvs2 => simp [pyEqStr, ih hrest]
    | none => simp [manifestScan, manifestHitSpec, ih hrest]
    | bool b => simp [manifestScan, manifestHitSpec, ih hrest]
    | int n => simp [manifestScan, manifestHitSpec, ih hrest]
    | numFloat lex => simp [manifestScan, manifestHitSpec, ih hrest]
    | str s => simp [manifestScan, manifestHitSpec, ih hrest]
    | list xs => simp [manifestScan, manifestHitSpec, ih hrest]

theorem marketScan_eq (fs : FS) (pn mk : String) : ∀ names : List String,
    marketScan fs pn mk names = names.findSome? (fun m =>
      if fs.isDir (pjoin mk m) then
        (if fs.isDir (pjoin (pjoin (pjoin mk m) "plugins") pn) then
          some (pjoin (pjoin (pjoin mk m) "plugins") pn)
        else if fs.isDir (pjoin (pjoin (pjoin mk m) "external_plugins") pn) then
          some (pjoin (pjoin (pjoin mk m) "external_plugins") pn)
        else Option.none)
      else Option.none) := by
  intro names
  induction names with
  | nil => rfl
  | cons m rest ih =>
    simp only [marketScan, List.findSome?_cons]
    by_cases h1 : fs.isDir (pjoin mk m) = true
    · by_cases h2 : fs.isDir (pjoin (pjoin (pjoin mk m) "plugins") pn) = true
      · simp [h1, h2]
      · by_cases h3 : fs.isDir (pjoin (pjoin (pjoin mk m) "external_plugins") pn) = true
        · simp [h1, h2, h3]
        · simp [h1, h2, h3, ih]
    · simp [h1, ih]

theorem serverScan_eq (cmd : String) : ∀ kvs : List (String × PyVal),
    serverScan cmd kvs =
      (kvs.find? (fun e => serverClaims cmd e.2)).map
        (fun e => (e.1, interceptsOf e.2)) := by
  intro kvs
  induction kvs with
  | nil => rfl
  | cons e rest ih =>
    obtain ⟨sname, sconf⟩ := e
    by_cases hcl : serverClaims cmd sconf = true
    · rw [List.find?_cons]
      rw [show serverClaims cmd (sname, sconf).2 = true from hcl]
      cases sconf with
      | dict conf =>
        cases hint : pyGetD conf "intercepts" (PyVal.list []) with
        | list xs =>
          have hmem : pyStrMem cmd xs = true := by
            simp only [serverClaims, hint] at hcl
            exact hcl
          simp only [serverScan, hint]
          rw [if_pos hmem]
          simp [interceptsOf, hint]
        | none =>
          simp only [serverClaims, hint] at hcl
          exact Bool.noConfusion hcl
        | bool b =>
          simp only [serverClaims, hint] at hcl
          exact Bool.noConfusion hcl
        | int n =>
          simp only [serverClaims, hint] at hcl
          exact Bool.noConfusion hcl
        | numFloat lex =>
          simp only [serverClaims, hint] at hcl
          exact Bool.noConfusion hcl
        | str s =>
          simp only [serverClaims, hint] at hcl
          exact Bool.noConfusion hcl
        | dict kvs2 =>
          simp only [serverClaims, hint] at hcl
          exact Bool.noConfusion hcl
      | none => exact absurd hcl (by simp [serverClaims])
      | bool b => exact absurd hcl (by simp [serverClaims])
      | int n => exact absurd hcl (by simp [serverClaims])
      | numFloat lex => exact absurd hcl (by simp [serverClaims])
      | str s => exact absurd hcl (by simp [serverClaims])
      | list xs => exact absurd hcl (by simp [serverClaims])
    · rw [List.find?_cons]
      rw [show serverClaims cmd (sname, sconf).2 = false from
        bool_eq_false_of_ne_true hcl]
      rw [← ih]
      cases sconf with
      | dict conf =>
        cases hint : pyGetD conf "intercepts" (PyVal.list []) with
        | list xs =>
          have hmem : pyStrMem cmd xs = false := by
            have h2 := bool_eq_false_of_ne_true hcl
            simp only [serverClaims, hint] at h2
            exact h2
          simp only [serverScan, hint]
          rw [if_neg (by rw [hmem]; exact Bool.noConfusion)]
        | none => simp [serverScan, hint]
        | bool b => simp [serverScan, hint]
        | int n => simp [serverScan, hint]
        | numFloat lex => simp [serverScan, hint]
        | str s => simp [serverScan, hint]
        | dict kvs2 => simp [serverScan, hint]
      | none => rfl
      | bool b => rfl
      | int n => rfl
      | numFloat lex => rfl
      | str s => rfl
      | list xs => rfl

theorem skillScan_eq (fs : FS) (sd : String) : ∀ names : List String,
    skillScan fs sd names =
      (names.filter (keepSkill fs sd)).map (fun n => pjoin (pjoin sd n) "SKILL.md") := by
  intro names
  induction names with
  | nil => rfl
  | cons n rest ih =>
    simp only [skillScan, List.filter_cons, keepSkill]
    by_cases h1 : fs.isDir (pjoin sd n) = true
    · by_cases h2 : fs.isFile (pjoin (pjoin sd n) "SKILL.md") = true
      · simp [h1, h2, keepSkill, ih]
      · simp [h1, h2, keepSkill, ih]
    · simp [h1, keepSkill, ih]


/-! ## Single-character search lemmas (for the namespace parser) -/

theorem containsSub_char_false {c : Char} {a : List Char} (h : c ∉ a) :
    containsSub [c] a = false := by
  induction a with
  | nil => rfl
  | cons x rest ih =>
    have hcx : ([c].isPrefixOf (x :: rest)) = false := by
      rw [show ([c].isPrefixOf (x :: rest)) = (c == x) by simp [List.isPrefixOf]]
      simp only [beq_eq_false_iff_ne, ne_eq]
      intro he
      exact h (by rw [he]; exact List.mem_cons_self x rest)
    have hrest : containsSub [c] rest = false :=
      ih (fun hm => h (List.mem_cons_of_mem x hm))
    simp only [containsSub, findSub] at hrest ⊢
    rw [if_neg (by rw [hcx]; exact Bool.noConfusion)]
    cases hv : findSub [c] rest with
    | none => rfl
    | some m =>
      rw [hv] at hrest
      exact Bool.noConfusion hrest

theorem findSub_char_of {c : Char} {a b : List Char} (hnotin : c ∉ a) :
    findSub [c] (a ++ c :: b) = some a.length := by
  rw [show a ++ c :: b = a ++ ([c] ++ b) from rfl]
  exact findSub_append_pattern (by simp) rfl (containsSub_char_false hnotin)

theorem mem_imp_prefix_drop {c : Char} {a : List Char} (h : c ∈ a) :
    ∃ j, j < a.length ∧ [c].isPrefixOf (a.drop j) = true := by
  induction a with
  | nil => cases h
  | cons x rest ih =>
    rcases List.mem_cons.mp h with he | hm
    · refine ⟨0, by simp, ?_⟩
      rw [List.drop_zero]
      simp [List.isPrefixOf, he]
    · rcases ih hm with ⟨j, hj, hp⟩
      refine ⟨j + 1, by simp; omega, ?_⟩
      exact hp

theorem findSub_char_decomp {c : Char} {s : List Char} {i : Nat}
    (h : findSub [c] s = some i) :
    s = s.take i ++ c :: s.drop (i + 1) ∧ c ∉ s.take i := by
  rcases findSub_some h with ⟨hp, hmin⟩
  cases hd : s.drop i with
  | nil =>
    rw [hd] at hp
    exact Bool.noConfusion hp
  | cons y t =>
    rw [hd] at hp
    have hcy : c = y := by
      rw [show ([c].isPrefixOf (y :: t)) = (c == y) by simp [List.isPrefixOf]] at hp
      exact beq_iff_eq.mp hp
    have ht : t = s.drop (i + 1) := by
      have h2 : (s.drop i).drop 1 = s.drop (i + 1) := List.drop_drop 1 i s
      rw [hd] at h2
      simp only [List.drop_succ_cons, List.drop_zero] at h2
      exact h2
    constructor
    · conv_lhs => rw [← List.take_append_drop i s]
      rw [hd, hcy, ht]
    · intro hmem
      rcases mem_imp_prefix_drop hmem with ⟨j, hj, hpj⟩
      have hjlen : j < i := by
        have := List.length_take_le i s
        have h3 : (s.take i).length ≤ i := List.length_take_le i s
        omega
      have hpfx : [c] <+: (s.take i).drop j :=
        List.isPrefixOf_iff_prefix.mp hpj
      have hsub : (s.take i).drop j <+: s.drop j := by
        rw [List.drop_take]
        exact List.take_prefix _ _
      have hcontra : [c].isPrefixOf (s.drop j) = true :=
        List.isPrefixOf_iff_prefix.mpr (hpfx.trans hsub)
      rw [hmin j hjlen] at hcontra
      exact Bool.noConfusion hcontra

/-! ## Claim theorems and witnesses -/

/-- C4: `parse_skill_name` succeeds exactly when the input contains a
`':'` and both the part before the first `':'` and the part after it are
non-empty, in which case it returns exactly that split (so further `':'`
characters stay in the command part, and `":x"`, `"x:"`, `":"`, `"x"` all
fail). -/
theorem parse_skill_name_iff (s a b : List Char) :
    parse_skill_name s = some (a, b) ↔
      a ≠ [] ∧ b ≠ [] ∧ ':' ∉ a ∧ s = a ++ ':' :: b := by
  constructor
  · intro h
    cases hf : findSub [':'] s with
    | none =>
      simp only [parse_skill_name, hf] at h
      exact Option.noConfusion h
    | some i =>
      simp only [parse_skill_name, hf] at h
      by_cases hempty : ((s.take i).isEmpty || (s.drop (i + 1)).isEmpty) = true
      · rw [if_pos hempty] at h
        exact Option.noConfusion h
      · rw [if_neg hempty] at h
        have hinj : s.take i = a ∧ s.drop (i + 1) = b := by
          cases h
          exact ⟨rfl, rfl⟩
        rcases hinj with ⟨ha, hb⟩
        rcases findSub_char_decomp hf with ⟨hdecomp, hnotin⟩
        rw [ha, hb] at hdecomp
        rw [ha] at hnotin
        simp only [Bool.or_eq_true, List.isEmpty_iff] at hempty
        push_neg at hempty
        rw [ha, hb] at hempty
        exact ⟨hempty.1, hempty.2, hnotin, hdecomp⟩
  · rintro ⟨ha, hb, hnotin, hs⟩
    subst hs
    simp only [parse_skill_name, findSub_char_of hnotin]
    have htake : (a ++ ':' :: b).take a.length = a := List.take_left a _
    have hdrop : (a ++ ':' :: b).drop (a.length + 1) = b := by
      rw [show a ++ ':' :: b = (a ++ [':']) ++ b by simp]
      exact List.drop_left' (by simp)
    rw [htake, hdrop]
    rw [if_neg ?_]
    simp only [Bool.or_eq_true, List.isEmpty_iff]
    push_neg
    exact ⟨ha, hb⟩

/-- Witness for C4 at concrete inputs: `"org:plugin:command"` splits at
the first `':'` only. -/
theorem parse_skill_name_iff_witness :
    parse_skill_name ("org:plugin:command".toList) =
      some ("org".toList, "plugin:command".toList) ↔
      "org".toList ≠ [] ∧ "plugin:command".toList ≠ [] ∧
        ':' ∉ "org".toList ∧
        "org:plugin:command".toList = "org".toList ++ ':' :: "plugin:command".toList :=
  parse_skill_name_iff "org:plugin:command".toList "org".toList
    "plugin:command".toList

/-- C2: the extractor is a total function by construction (its model
returns a plain pair, every `json.loads` failure being caught on every
path), and whenever all three recovery tiers yield nothing it returns the
whole input as the narrative text with an absent payload. -/
theorem parse_response_total_fallback (s : List Char)
    (h1 : strategy1 s = Option.none) (h2 : strategy2 s = Option.none)
    (h3 : strategy3 s = Option.none) :
    parse_response s = (s, PyVal.none) := by
  unfold parse_response
  rw [h1, h2, h3]

/-- Witness for C2: a prose-only response falls through all three tiers. -/
theorem parse_response_total_fallback_witness :
    parse_response ("no structured payload here".toList) =
      ("no structured payload here".toList, PyVal.none) :=
  parse_response_total_fallback "no structured payload here".toList rfl rfl rfl

/-- C3 (code bug): a `.mcp.json` or `mcp.json` whose top level is a valid
JSON array — a well-formed file of the wrong shape — makes the source
call `.get` on a list, raising `AttributeError` instead of degrading to
"no claim" and `false`. -/
theorem read_intercepts_array_top_raises :
    read_intercepts fsArrayTop "/p" "review-contract" =
      .error PyErr.attributeError ∧
    check_server_configured fsArrayTop "generate-redlined" "/m.json" =
      .error PyErr.attributeError :=
  ⟨rfl, rfl⟩

/-- C6 (code bug): the orchestrator propagates the `AttributeError` of
`read_intercepts` to its caller when the `.mcp.json` of the resolved plugin is
a valid JSON array, instead of yielding the absence of a result. -/
theorem find_intercept_raises :
    find_intercept fsLiveArrayMcp ("legal:review-contract".toList) "/r"
      Option.none "/r/mcp.json" = .error PyErr.attributeError := rfl

/-- C9 (code bug): the fenced-block tier parses whatever JSON the fence
holds, so a fenced array is returned as the structured payload, which is
not a JSON object and contradicts the declared
`tuple[str, dict[str, Any] | None]` return shape. -/
theorem parse_response_fence_array :
    parse_response ("```json\n[1, 2]\n```".toList) =
      ([], PyVal.list [PyVal.int 1, PyVal.int 2]) := rfl


/-- C7: on a well-formed `.mcp.json` (present, parsing to an object whose
`mcpServers` is an object), `read_intercepts` returns the first server in
mapping iteration order whose `intercepts` list contains the command,
paired with that full list; servers without a list-shaped `intercepts`
never claim, and no claiming server or an absent file yields no claim. -/
theorem read_intercepts_first_claim (fs : FS) (plugin_dir command_name : String) :
    (∀ top kvs, fs.isFile (pjoin plugin_dir ".mcp.json") = true →
      fs.readJson (pjoin plugin_dir ".mcp.json") = some (PyVal.dict top) →
      pyGetD top "mcpServers" (PyVal.dict []) = PyVal.dict kvs →
      read_intercepts fs plugin_dir command_name =
        .ok ((kvs.find? (fun e => serverClaims command_name e.2)).map
          (fun e => (e.1, interceptsOf e.2)))) ∧
    (fs.isFile (pjoin plugin_dir ".mcp.json") = false →
      read_intercepts fs plugin_dir command_name = .ok Option.none) := by
  constructor
  · intro top kvs hfile hjson hservers
    simp only [read_intercepts, hfile, if_true, hjson, hservers]
    rw [serverScan_eq]
  · intro hfile
    simp [read_intercepts, hfile]

/-- Witness for C7: two bindings, only the second claiming the target
command; the second is returned with its full list. -/
theorem read_intercepts_first_claim_witness :
    read_intercepts fsTwoServers "/p" "review-contract" =
      .ok (some ("server-b",
        [PyVal.str "review-contract", PyVal.str "draft-contract"])) := by
  have h := (read_intercepts_first_claim fsTwoServers "/p" "review-contract").1
    [("mcpServers", PyVal.dict
      [("server-a", PyVal.dict [("intercepts", PyVal.list [PyVal.str "other"])]),
       ("server-b", PyVal.dict
         [("type", PyVal.str "stdio"),
          ("intercepts", PyVal.list
            [PyVal.str "review-contract", PyVal.str "draft-contract"])])])]
    [("server-a", PyVal.dict [("intercepts", PyVal.list [PyVal.str "other"])]),
     ("server-b", PyVal.dict
       [("type", PyVal.str "stdio"),
        ("intercepts", PyVal.list
          [PyVal.str "review-contract", PyVal.str "draft-contract"])])]
    rfl rfl rfl
  exact h.trans rfl

/-- C5: path resolution fails (with the one deliberate hard failure,
`FileNotFoundError`) exactly when `commands/<command>.md` is absent,
regardless of `skills/`; on success it returns that command path together
with `skills/<subdir>/SKILL.md` for exactly the kept subdirectories, in
ascending (lexicographic) name order, an absent `skills/` giving the
empty list. -/
theorem resolve_paths_spec (fs : FS) (plugin_dir command_name : String) :
    (resolve_paths fs plugin_dir command_name = .error PyErr.fileNotFound ↔
      fs.isFile (pjoin (pjoin plugin_dir "commands") (command_name ++ ".md")) = false) ∧
    (fs.isFile (pjoin (pjoin plugin_dir "commands") (command_name ++ ".md")) = true →
      resolve_paths fs plugin_dir command_name =
        .ok (pjoin (pjoin plugin_dir "commands") (command_name ++ ".md"),
          if fs.isDir (pjoin plugin_dir "skills") then
            (skillNamesSpec fs (pjoin plugin_dir "skills")).map
              (fun n => pjoin (pjoin (pjoin plugin_dir "skills") n) "SKILL.md")
          else [])) ∧
    List.Pairwise strLeR (skillNamesSpec fs (pjoin plugin_dir "skills")) ∧
    (∀ n, n ∈ skillNamesSpec fs (pjoin plugin_dir "skills") ↔
      n ∈ fs.listDir (pjoin plugin_dir "skills") ∧
        keepSkill fs (pjoin plugin_dir "skills") n = true) := by
  refine ⟨⟨?_, ?_⟩, ?_, ?_, ?_⟩
  · intro h
    by_cases hf : fs.isFile (pjoin (pjoin plugin_dir "commands")
        (command_name ++ ".md")) = true
    · simp only [resolve_paths, hf, if_true] at h
      exact Except.noConfusion h
    · exact bool_eq_false_of_ne_true hf
  · intro hf
    simp only [resolve_paths]
    rw [if_neg (by rw [hf]; exact Bool.noConfusion)]
  · intro hf
    simp only [resolve_paths, hf, if_true]
    by_cases hd : fs.isDir (pjoin plugin_dir "skills") = true
    · rw [if_pos hd, if_pos hd]
      rw [skillScan_eq]
      rfl
    · rw [if_neg (by rw [bool_eq_false_of_ne_true hd]; exact Bool.noConfusion),
        if_neg (by rw [bool_eq_false_of_ne_true hd]; exact Bool.noConfusion)]
  · exact List.Pairwise.filter _ (List.sorted_insertionSort strLeR _)
  · intro n
    unfold skillNamesSpec
    rw [List.mem_filter]
    constructor
    · rintro ⟨hmem, hkeep⟩
      exact ⟨(List.perm_insertionSort strLeR _).mem_iff.mp hmem, hkeep⟩
    · rintro ⟨hmem, hkeep⟩
      exact ⟨(List.perm_insertionSort strLeR _).mem_iff.mpr hmem, hkeep⟩

/-- Witness for C5: one command resolves with the two kept skills in
sorted order; a missing command file is the hard failure even with
`skills/` present. -/
theorem resolve_paths_spec_witness :
    resolve_paths fsSkills "/p" "review-contract" =
      .ok ("/p/commands/review-contract.md",
        ["/p/skills/analysis/SKILL.md", "/p/skills/redlining/SKILL.md"]) ∧
    resolve_paths fsSkills "/p" "nope" = .error PyErr.fileNotFound := by
  constructor
  · exact ((resolve_paths_spec fsSkills "/p" "review-contract").2.1 rfl).trans rfl
  · exact ((resolve_paths_spec fsSkills "/p" "nope").1).mpr rfl


theorem find_plugin_dir_rest_eq (fs : FS) (pn root : String) :
    find_plugin_dir_rest fs pn root =
      (((if fs.isDir (pjoin (pjoin root "knowledge-work-plugins") pn) then
          some (pjoin (pjoin root "knowledge-work-plugins") pn)
        else Option.none) <|>
        (if fs.isDir (pjoin (pjoin (pjoin root "cache") "knowledge-work-plugins") pn) then
          (maxStrByLe
            ((fs.listDir (pjoin (pjoin (pjoin root "cache") "knowledge-work-plugins") pn)).filter
              (fun n => fs.isDir
                (pjoin (pjoin (pjoin (pjoin root "cache") "knowledge-work-plugins") pn) n)))).map
            (pjoin (pjoin (pjoin (pjoin root "cache") "knowledge-work-plugins") pn))
        else Option.none)) <|>
        (if fs.isDir (pjoin root "marketplaces") then
          marketHitSpec fs pn (pjoin root "marketplaces")
        else Option.none)) := by
  simp only [find_plugin_dir_rest]
  by_cases hlive : fs.isDir (pjoin (pjoin root "knowledge-work-plugins") pn) = true
  · simp [hlive]
  · have hlive2 := bool_eq_false_of_ne_true hlive
    simp only [hlive2, Bool.false_eq_true, if_false, Option.none_orElse]
    by_cases hcache :
        fs.isDir (pjoin (pjoin (pjoin root "cache") "knowledge-work-plugins") pn) = true
    · simp only [hcache, if_true]
      cases hsort : List.insertionSort strGeR
          ((fs.listDir (pjoin (pjoin (pjoin root "cache") "knowledge-work-plugins") pn)).filter
            (fun n => fs.isDir
              (pjoin (pjoin (pjoin (pjoin root "cache") "knowledge-work-plugins") pn) n))) with
      | nil =>
        have hsub := (sortDesc_nil_iff _).mp hsort
        rw [hsub] at hsort
        simp only [hsort]
        rw [hsub]
        simp only [maxStrByLe, Option.map_none, Option.none_orElse]
        by_cases hmk : fs.isDir (pjoin root "marketplaces") = true
        · simp only [hmk, if_true]
          rw [marketScan_eq]
          rfl
        · have hmk2 := bool_eq_false_of_ne_true hmk
          simp [hmk2]
      | cons v rest2 =>
        rw [sortDesc_head_max hsort]
        simp [hsort]
    · have hcache2 := bool_eq_false_of_ne_true hcache
      simp only [hcache2, Bool.false_eq_true, if_false, Option.none_orElse]
      by_cases hmk : fs.isDir (pjoin root "marketplaces") = true
      · simp only [hmk, if_true]
        rw [marketScan_eq]
        rfl
      · have hmk2 := bool_eq_false_of_ne_true hmk
        simp [hmk2]

/-- C1 (amended): provided every manifest entry whose `name` equals the
target and whose `installPath` is truthy has a string `installPath`,
`find_plugin_dir` searches the four source locations in strict priority
order, stopping at the first hit — manifest entry with an existing
directory, live directory, cache version with the lexicographically
greatest name (plain string order), then marketplaces (`plugins/` before
`external_plugins/` per marketplace) — and returns no result, not an
error, when no tier hits.  (Without the proviso a matching entry with a
truthy non-string `installPath` raises `TypeError`; see the
counterexample.) -/
theorem find_plugin_dir_priority (fs : FS) (plugin_name plugins_root : String)
    (installed_plugins_path : Option String)
    (h : (manifestEntriesOf fs (installed_plugins_path.getD
        (pjoin plugins_root "installed_plugins.json"))).all
        (benignEntry plugin_name) = true) :
    find_plugin_dir fs plugin_name plugins_root installed_plugins_path =
      .ok (findPluginDirSpec fs plugin_name plugins_root installed_plugins_path) := by
  have hentry :
      (if fs.isFile (installed_plugins_path.getD
          (pjoin plugins_root "installed_plugins.json")) then
        match fs.readJson (installed_plugins_path.getD
            (pjoin plugins_root "installed_plugins.json")) with
        | some (PyVal.dict entries) => manifestScan fs plugin_name entries
        | some _ => Except.ok Option.none
        | Option.none => Except.ok Option.none
      else Except.ok Option.none) =
      .ok (manifestHitSpec fs plugin_name
        (manifestEntriesOf fs (installed_plugins_path.getD
          (pjoin plugins_root "installed_plugins.json")))) := by
    by_cases hfile : fs.isFile (installed_plugins_path.getD
        (pjoin plugins_root "installed_plugins.json")) = true
    · simp only [manifestEntriesOf, hfile, if_true] at h ⊢
      cases hjson : fs.readJson (installed_plugins_path.getD
          (pjoin plugins_root "installed_plugins.json")) with
      | none => rfl
      | some v =>
        rw [hjson] at h
        cases v with
        | dict entries => exact manifestScan_eq h
        | none => rfl
        | bool b => rfl
        | int n => rfl
        | numFloat lex => rfl
        | str s => rfl
        | list xs => rfl
    · have hfile2 := bool_eq_false_of_ne_true hfile
      simp only [manifestEntriesOf, hfile2, Bool.false_eq_true, if_false]
      rfl
  simp only [find_plugin_dir, findPluginDirSpec]
  rw [hentry]
  cases hhit : manifestHitSpec fs plugin_name
      (manifestEntriesOf fs (installed_plugins_path.getD
        (pjoin plugins_root "installed_plugins.json"))) with
  | some p => simp
  | none =>
    simp only [Option.none_orElse]
    rw [find_plugin_dir_rest_eq]

/-- Witness for the amended C1: a plugin present only in the cache with
versions `1.0.0` and `2.0.0` resolves to `2.0.0`, the lexicographic
maximum, with a benign manifest naming another plugin. -/
theorem find_plugin_dir_priority_witness :
    find_plugin_dir fsCacheTwo "legal" "/r" Option.none =
      .ok (some "/r/cache/knowledge-work-plugins/legal/2.0.0") :=
  (find_plugin_dir_priority fsCacheTwo "legal" "/r" Option.none rfl).trans rfl

/-- Counterexample to C1 as stated: on a filesystem whose manifest entry
for the target carries the truthy non-string `installPath` `5`,
`find_plugin_dir` raises `TypeError` even though a live directory is
available — it neither returns a hit nor "no result". -/
theorem find_plugin_dir_typeerror :
    find_plugin_dir fsBadManifest "legal" "/r" Option.none =
      .error PyErr.typeError := rfl


/-- C8: round-trip through the fenced-block tier.  For any prose not
containing the opening fence literal and any serialization of a JSON
object that starts with a non-whitespace character and does not contain a
newline-plus-close-fence, wrapping the serialization in a labeled fence
after the prose makes the extractor return exactly the parsed object and
the prose, stripped. -/
theorem parse_response_fence_roundtrip (prose jstr : List Char)
    (kvs : List (String × PyVal))
    (hprose : containsSub fenceOpen prose = false)
    (hjf : containsSub nlFence jstr = false)
    (hws : jstr.takeWhile isPySpace = [])
    (hj : jsonLoads jstr = .ok (PyVal.dict kvs)) :
    parse_response (prose ++ (fenceOpen ++ ('\n' :: (jstr ++ nlFence)))) =
      (pyStrip prose, PyVal.dict kvs) := by
  have hne : jstr ≠ [] := by
    intro he
    rw [he] at hj
    exact Except.noConfusion hj
  have hsearch :
      fenceSearch (prose ++ (fenceOpen ++ ('\n' :: (jstr ++ nlFence)))) 0 =
        some (0 + prose.length, jstr) := by
    apply fenceSearch_eq (n := prose.length)
    · intro j hj2
      exact no_straddle (by decide) (by decide) hprose hj2
    · rw [List.drop_left]
      exact List.isPrefixOf_iff_prefix.mpr (List.prefix_append _ _)
    · rw [List.drop_left]
      rw [show (fenceOpen ++ ('\n' :: (jstr ++ nlFence))).drop 7 =
        '\n' :: (jstr ++ nlFence) from List.drop_left' (by decide)]
      exact fenceTail_of_clean hne hws hjf
  have hstrat :
      strategy1 (prose ++ (fenceOpen ++ ('\n' :: (jstr ++ nlFence)))) =
        some (pyStrip prose, PyVal.dict kvs) := by
    simp only [strategy1, hsearch, hj]
    rw [Nat.zero_add, List.take_left]
  unfold parse_response
  rw [hstrat]

/-- Witness for C8 at a concrete prose and object. -/
theorem parse_response_fence_roundtrip_witness :
    parse_response ("Intro: ".toList ++ (fenceOpen ++
        ('\n' :: (['{', '"', 'a', '"', ':', '1', '}'] ++ nlFence)))) =
      ("Intro:".toList, PyVal.dict [("a", PyVal.int 1)]) :=
  (parse_response_fence_roundtrip "Intro: ".toList
    ['{', '"', 'a', '"', ':', '1', '}'] [("a", PyVal.int 1)]
    rfl rfl rfl rfl).trans rfl

/-- C10 (implicit, from the code): when tiers 1 and 2 fail and the text
decomposes as `pre ++ mid ++ post` where `mid` ends at the last `'\x7d'`
of the text (no `'\x7d'` in `post`), the backward scan matches the
final `'\x7d'` to the first character of `mid`, and `mid` parses as JSON, the
extractor returns the parse of `mid` with narrative exactly `pre`
stripped — the characters of `post` are silently discarded, appearing in
neither component.  Additionally tier 3 is never attempted when the last
`'\x7d'` is the first character of the text. -/
theorem parse_response_trailing_object (pre mid0 post : List Char) (v : PyVal)
    (h1 : strategy1 ((pre ++ (mid0 ++ ['}'])) ++ post) = Option.none)
    (h2 : strategy2 ((pre ++ (mid0 ++ ['}'])) ++ post) = Option.none)
    (hpost : '}' ∉ post)
    (hrev : revScan ((mid0 ++ ['}']).reverse) 0 0 = some mid0.length)
    (hpos : 0 < pre.length + mid0.length)
    (hj : jsonLoads (mid0 ++ ['}']) = .ok v) :
    (parse_response ((pre ++ (mid0 ++ ['}'])) ++ post) = (pyStrip pre, v)) ∧
    (∀ s, rfindBrace s = some 0 → strategy3 s = Option.none) := by
  constructor
  · have hrfind :
        rfindBrace ((pre ++ (mid0 ++ ['}'])) ++ post) =
          some (pre.length + mid0.length) := by
      have hr1 : rfindBrace (mid0 ++ ['}']) = some mid0.length := by
        rw [rfindBrace_append]
        exact rfl
      have hr2 : rfindBrace ((mid0 ++ ['}']) ++ post) = some mid0.length := by
        rw [rfindBrace_append, rfindBrace_none_of hpost, hr1]
      rw [List.append_assoc, rfindBrace_append, hr2]
    have hmidlen : (pre ++ (mid0 ++ ['}'])).length =
        pre.length + mid0.length + 1 := by
      simp only [List.length_append, List.length_cons, List.length_nil]
      omega
    have htake :
        ((pre ++ (mid0 ++ ['}'])) ++ post).take (pre.length + mid0.length + 1) =
          pre ++ (mid0 ++ ['}']) := by
      rw [← hmidlen]
      exact List.take_left _ _
    have hscan :
        revScan (((pre ++ (mid0 ++ ['}'])) ++ post).take
            (pre.length + mid0.length + 1)).reverse 0 0 = some mid0.length := by
      rw [htake, List.reverse_append]
      exact revScan_append hrev
    have hjson :
        (((pre ++ (mid0 ++ ['}'])) ++ post).drop
            (pre.length + mid0.length - mid0.length)).take
          (pre.length + mid0.length + 1 - (pre.length + mid0.length - mid0.length)) =
          mid0 ++ ['}'] := by
      rw [show pre.length + mid0.length - mid0.length = pre.length by omega]
      rw [List.append_assoc]
      rw [List.drop_left]
      rw [show pre.length + mid0.length + 1 - pre.length = (mid0 ++ ['}']).length by
        simp only [List.length_append, List.length_cons, List.length_nil]
        omega]
      exact List.take_left _ _
    have htakei :
        ((pre ++ (mid0 ++ ['}'])) ++ post).take
            (pre.length + mid0.length - mid0.length) = pre := by
      rw [show pre.length + mid0.length - mid0.length = pre.length by omega]
      rw [List.append_assoc]
      exact List.take_left _ _
    have hstrat :
        strategy3 ((pre ++ (mid0 ++ ['}'])) ++ post) = some (pyStrip pre, v) := by
      simp only [strategy3, hrfind]
      rw [if_pos hpos]
      simp only [hscan, hjson, hj, htakei]
    unfold parse_response
    rw [h1, h2, hstrat]
  · intro s hs
    simp only [strategy3, hs]
    rw [if_neg (by omega)]

/-- Witness for C10: a trailing object with discarded trailing text, and
the index-zero guard. -/
theorem parse_response_trailing_object_witness :
    parse_response (("Summary ".toList ++
        (['{', '"', 'k', '"', ':', '2'] ++ ['}'])) ++ " extra".toList) =
      ("Summary".toList, PyVal.dict [("k", PyVal.int 2)]) ∧
    strategy3 ['}'] = Option.none := by
  have h := parse_response_trailing_object "Summary ".toList
    ['{', '"', 'k', '"', ':', '2'] " extra".toList
    (PyVal.dict [("k", PyVal.int 2)]) rfl rfl (by decide) rfl (by decide) rfl
  exact ⟨h.1.trans rfl, h.2 ['}'] rfl⟩

end Plugin2MCP
